import Mathlib

/-!
Verification development for the route-assembly core of the employee survey
backend (`src/controllers/projectController.js`).

The embedding keeps the fields that the route-assembly logic reads or writes:
the `isStart`/`isEnd` flags, the creator / path-owner identity (employee ids
are modelled as `Nat`, standing for Mongo ObjectIds compared via
`toString()`), and the creation timestamp (milliseconds since the epoch, as
`Nat`).  Geographic coordinates, names, route-classification strings, image
references and the pole/GPS measurement sub-records are opaque payload that
the core carries through unchanged; they play no role in any property and are
represented by the opaque `id` field.  Project `circle` / `division` /
`description` are likewise opaque and modelled as `Nat`.
-/

/-- One stored survey waypoint (`waypoint` object built in `addWaypoint`,
projectController.js lines 290-307).  `createdBy` and `pathOwner` are both set
to the submitting employee's id by the source. -/
structure Waypoint where
  id : Nat
  isStart : Bool
  isEnd : Bool
  createdBy : Nat
  pathOwner : Nat
  timestamp : Nat
  deriving Repr, DecidableEq

/-- A waypoint submission as it reaches the path-building logic after
transport-level parsing: the parsed `isStart` / `isEnd` booleans
(`parsedIsStart` / `parsedIsEnd`, lines 215-216), the clock reading used for
`timestamp: new Date()` (line 305), and the opaque payload `id`. -/
structure Submission where
  id : Nat
  isStart : Bool
  isEnd : Bool
  timestamp : Nat
  deriving Repr, DecidableEq

/-- The waypoint object the handler stores for employee `emp`
(lines 290-307): flags come from the parsed submission and both identity
references are the submitting employee. -/
def mkWaypoint (emp : Nat) (sub : Submission) : Waypoint :=
  { id := sub.id
    isStart := sub.isStart
    isEnd := sub.isEnd
    createdBy := emp
    pathOwner := emp
    timestamp := sub.timestamp }

/-- A project's path collection: `project.waypoints`, an ordered list of
paths, each an ordered list of waypoints. -/
abbrev PathColl := List (List Waypoint)

/-- The ownership test of the filter on line 312-314:
`path[0].pathOwner?.toString() === employeeId.toString()`.  The source reads
`path[0]` unguarded, so on an empty path it would throw; paths produced by
`addWaypoint` are never empty (proved below), and the `[] => false` branch is
never exercised on reachable states. -/
def ownedBy (emp : Nat) : List Waypoint → Bool
  | [] => false
  | w :: _ => w.pathOwner == emp

/-- `userPaths` (line 312): the subsequence of the project's paths owned by
the employee, in creation order. -/
def userPaths (emp : Nat) (paths : PathColl) : PathColl :=
  paths.filter (ownedBy emp)

/-- A path is open when its last waypoint does not have `isEnd = true`
(`!lastUserPath[lastUserPath.length - 1].isEnd`, line 318).  The `none`
branch is unreachable for paths delivered by the ownership filter, which
passes only non-empty paths. -/
def isOpenPath (p : List Waypoint) : Bool :=
  match p.getLast? with
  | some w => !w.isEnd
  | none => false

/-- `hasIncompletePath` (lines 316-318): the employee's last owned path
exists and is still open. -/
def hasIncompletePath (emp : Nat) (paths : PathColl) : Bool :=
  match (userPaths emp paths).getLast? with
  | some p => isOpenPath p
  | none => false

/-- The rejection reasons native to the path builder, one per early-return
branch of `addWaypoint`.  The source messages are, in order:
"Cannot start a new path. Your last path is not complete." (line 324),
"Cannot end a path that hasn't started." (line 336), and
"No active path found. Start a new path with isStart: true before adding
midpoints." (line 346). -/
inductive PathConflict where
  | startWhileOpen
  | endWithoutOpen
  | midpointWithoutOpen
  deriving Repr, DecidableEq

/-- Outcome of one submission: HTTP 201 with the waypoint appended, or an
HTTP 400 path-conflict rejection. -/
inductive SubmitResult where
  | accepted
  | rejected (e : PathConflict)
  deriving Repr, DecidableEq

/-- `lastUserPath.push(waypoint)` (lines 340, 351) mutates the last
employee-owned path inside `project.waypoints` in place.  Functionally: walk
the collection from the front and extend the first path owned by `emp`;
`appendToLastOwned` below applies this to the reversed collection. -/
def appendToFirstOwned (emp : Nat) (w : Waypoint) : PathColl → PathColl
  | [] => []
  | p :: ps =>
    if ownedBy emp p then (p ++ [w]) :: ps
    else p :: appendToFirstOwned emp w ps

/-- Append `w` to the last path of the collection owned by `emp` (the
collection is unchanged when the employee owns no path). -/
def appendToLastOwned (emp : Nat) (w : Waypoint) (paths : PathColl) : PathColl :=
  (appendToFirstOwned emp w paths.reverse).reverse

/-- The path-building core of `addWaypoint` (projectController.js lines
290-355), for employee `emp`, submission `sub`, against path collection
`paths`.  Returns the response outcome together with the path collection as
it stands when the handler returns (the rejection branches return before any
mutation, so they leave the collection untouched). -/
def addWaypoint (emp : Nat) (sub : Submission) (paths : PathColl) :
    SubmitResult × PathColl :=
  let w := mkWaypoint emp sub
  if sub.isStart then
    if hasIncompletePath emp paths then
      (.rejected .startWhileOpen, paths)
    else
      (.accepted, paths ++ [[w]])
  else if sub.isEnd then
    if !hasIncompletePath emp paths then
      (.rejected .endWithoutOpen, paths)
    else
      (.accepted, appendToLastOwned emp w paths)
  else
    if !hasIncompletePath emp paths then
      (.rejected .midpointWithoutOpen, paths)
    else
      (.accepted, appendToLastOwned emp w paths)

/-- Project states reachable from an empty path collection by accepted
`addWaypoint` calls (arbitrary employees and submissions; rejected
submissions leave the state unchanged, so only accepted steps matter). -/
inductive Reachable : PathColl → Prop where
  | nil : Reachable []
  | step (emp : Nat) (sub : Submission) (s s' : PathColl) :
      Reachable s → addWaypoint emp sub s = (.accepted, s') → Reachable s'

/-- Reachability restricted to well-formed submissions, i.e. those honouring
the documented precondition that `isStart` and `isEnd` are mutually
exclusive. -/
inductive ReachableWF : PathColl → Prop where
  | nil : ReachableWF []
  | step (emp : Nat) (sub : Submission) (s s' : PathColl) :
      ReachableWF s → (sub.isStart = false ∨ sub.isEnd = false) →
      addWaypoint emp sub s = (.accepted, s') → ReachableWF s'

/-- Project document as read by `getAllWaypointsEmployee`: identity plus the
metadata copied onto each segment, and the stored path collection.  `circle`,
`division` and `description` are opaque and modelled as numbers. -/
structure ProjectInfo where
  projectId : Nat
  circle : Nat
  division : Nat
  description : Nat
  waypoints : PathColl
  deriving Repr, DecidableEq

/-- UTC calendar-day index of a millisecond timestamp, modelling
`new Date(t).toISOString().split("T")[0]` (lines 566-568): two timestamps
yield the same date string exactly when they fall in the same UTC day. -/
def dayOfTimestamp (t : Nat) : Nat :=
  t / 86400000

/-- A reconstructed segment as pushed onto `allSegments`
(lines 569-577 and 586-594): the project metadata, the accumulated waypoint
run, its display date and its sort timestamp. -/
structure Segment where
  projectId : Nat
  circle : Nat
  division : Nat
  description : Nat
  segment : List Waypoint
  date : Nat
  timestamp : Nat
  deriving Repr, DecidableEq

/-- Build a segment for project `pr` dated/sorted by timestamp `t`. -/
def mkSegment (pr : ProjectInfo) (seg : List Waypoint) (t : Nat) : Segment :=
  { projectId := pr.projectId
    circle := pr.circle
    division := pr.division
    description := pr.description
    segment := seg
    date := dayOfTimestamp t
    timestamp := t }

/-- The per-employee flattened waypoint stream of a project (lines 549-551):
`project.waypoints.flat().filter((wp) => wp.createdBy?.empId === empId)`,
scanned in storage order. -/
def employeeWaypoints (emp : Nat) (pr : ProjectInfo) : List Waypoint :=
  pr.waypoints.flatten.filter (fun w => w.createdBy == emp)

/-- The open-segment flush of the scan (lines 582-596): fires only at the
last waypoint of the stream (`rest` empty) when the accumulator is still
non-empty, and dates the segment by the accumulator's first waypoint. -/
def openEmit (pr : ProjectInfo) (rest cur : List Waypoint) : List Segment :=
  match rest, cur with
  | [], w :: _ => [mkSegment pr cur w.timestamp]
  | _, _ => []

/-- The segment scan of `getAllWaypointsEmployee` (lines 553-597), as a
recursion over the remaining stream carrying the `currentSegment`
accumulator `cur`.  Per waypoint, in source order: an `isStart` waypoint
resets the accumulator to just itself, otherwise the waypoint is appended
when the accumulator is non-empty; an `isEnd` waypoint with a non-empty
accumulator emits a closed segment dated by that waypoint's timestamp and
clears the accumulator; at the last waypoint of the stream a still non-empty
accumulator is emitted as an open segment dated by its first waypoint's
timestamp. -/
def segScan (pr : ProjectInfo) (cur : List Waypoint) : List Waypoint → List Segment
  | [] => []
  | wp :: rest =>
    let cur1 := if wp.isStart then [wp]
      else if cur.isEmpty then cur else cur ++ [wp]
    let closedOut := if wp.isEnd && !cur1.isEmpty then
        [mkSegment pr cur1 wp.timestamp] else []
    let cur2 := if wp.isEnd && !cur1.isEmpty then [] else cur1
    closedOut ++ openEmit pr rest cur2 ++ segScan pr cur2 rest

/-- All segments the scan extracts from one project for one employee. -/
def extractSegments (pr : ProjectInfo) (emp : Nat) : List Segment :=
  segScan pr [] (employeeWaypoints emp pr)

/-- Step 1 of `getAllWaypointsEmployee` (lines 547-598): collect every
extracted segment across the employee's projects, in project order. -/
def allSegments (prs : List ProjectInfo) (emp : Nat) : List Segment :=
  (prs.map (fun pr => extractSegments pr emp)).flatten

/-- The comparator of step 2 (line 601):
`(a, b) => new Date(b.timestamp) - new Date(a.timestamp)` puts `a` before
`b` exactly when `b.timestamp ≤ a.timestamp` (descending; ties keep
submission order since the ECMAScript sort is stable). -/
def segDescBy (a b : Segment) : Bool :=
  b.timestamp ≤ a.timestamp

/-- Step 2 (line 601): stable sort of all segments, newest first. -/
def sortSegments (segs : List Segment) : List Segment :=
  segs.mergeSort segDescBy

/-- One insertion into the `dateGroups` object (lines 604-610): segments with
an already-seen date join that date's bucket, a fresh date opens a new bucket
at the end (string keys of a JS object enumerate in insertion order). -/
def insertGroup (s : Segment) : List (Nat × List Segment) → List (Nat × List Segment)
  | [] => [(s.date, [s])]
  | (k, g) :: rest =>
    if k = s.date then (k, g ++ [s]) :: rest
    else (k, g) :: insertGroup s rest

/-- Step 3 (lines 604-610): group the sorted segments by date tag, buckets in
first-seen order, each bucket preserving the sorted order. -/
def groupByDate (segs : List Segment) : List (Nat × List Segment) :=
  segs.foldl (fun acc s => insertGroup s acc) []

/-- The date-key comparator of step 4 (lines 613-615):
`(a, b) => new Date(b) - new Date(a)`, descending on the calendar day. -/
def dateDescBy (a b : Nat × List Segment) : Bool :=
  b.1 ≤ a.1

/-- Step 4's ordered date groups (lines 613-615): the buckets of
`groupByDate` reordered by date, newest date first.  The final response body
walks exactly this list, so its entries appear grouped by descending date. -/
def sortedDateGroups (segs : List Segment) : List (Nat × List Segment) :=
  (groupByDate segs).mergeSort dateDescBy

/-- Waypoint display projection of step 5 (lines 630-654), restricted to the
modelled fields (`_id`, flags, `timestamp`, flattened creator identity). -/
structure DisplayWaypoint where
  id : Nat
  isStart : Bool
  isEnd : Bool
  timestamp : Nat
  createdBy : Nat
  deriving Repr, DecidableEq

/-- Project the modelled fields of a stored waypoint to the display shape. -/
def displayWaypoint (w : Waypoint) : DisplayWaypoint :=
  { id := w.id
    isStart := w.isStart
    isEnd := w.isEnd
    timestamp := w.timestamp
    createdBy := w.createdBy }

/-- One entry of the final `result` list (lines 618-658): project metadata
plus the list of displayed segments merged under that project. -/
structure ProjectEntry where
  projectId : Nat
  circle : Nat
  division : Nat
  description : Nat
  waypoints : List (List DisplayWaypoint)
  deriving Repr, DecidableEq

/-- One insertion into the per-date `projectsMap` (lines 619-656): segments
of an already-seen project push their displayed waypoint list onto that
entry, a fresh project id opens a new entry at the end (JS `Map` preserves
insertion order). -/
def insertEntry (s : Segment) : List ProjectEntry → List ProjectEntry
  | [] => [{ projectId := s.projectId, circle := s.circle,
             division := s.division, description := s.description,
             waypoints := [s.segment.map displayWaypoint] }]
  | e :: rest =>
    if e.projectId = s.projectId then
      { e with waypoints := e.waypoints ++ [s.segment.map displayWaypoint] } :: rest
    else e :: insertEntry s rest

/-- The per-date project grouping of step 5 (lines 618-658). -/
def entriesForDate (segs : List Segment) : List ProjectEntry :=
  segs.foldl (fun acc s => insertEntry s acc) []

/-- The full reconstruction pipeline of `getAllWaypointsEmployee`
(lines 546-659): extract, sort, group by date, and emit per-date project
entries in date order. -/
def reconstruct (prs : List ProjectInfo) (emp : Nat) : List ProjectEntry :=
  ((sortedDateGroups (sortSegments (allSegments prs emp))).map
    (fun g => entriesForDate g.2)).flatten

/-- The project history with one employee's waypoints removed, used to state
noninterference of the reconstruction across employees. -/
def removeEmployeeWaypoints (emp : Nat) (pr : ProjectInfo) : ProjectInfo :=
  { pr with waypoints := pr.waypoints.map (fun p => p.filter (fun w => w.createdBy != emp)) }

/-! ### Ownership and path-extension lemmas -/

theorem ownedBy_iff {emp : Nat} {p : List Waypoint} :
    ownedBy emp p = true ↔ ∃ w t, p = w :: t ∧ w.pathOwner = emp := by
  cases p with
  | nil => simp [ownedBy]
  | cons w t => simp [ownedBy]

theorem ownedBy_ne_nil {emp : Nat} {p : List Waypoint} (h : ownedBy emp p = true) :
    p ≠ [] := by
  cases p with
  | nil => simp [ownedBy] at h
  | cons w t => simp

theorem ownedBy_append {e : Nat} {p : List Waypoint} (h : p ≠ []) (q : List Waypoint) :
    ownedBy e (p ++ q) = ownedBy e p := by
  cases p with
  | nil => exact absurd rfl h
  | cons w t => rfl

theorem appendToFirstOwned_spec (emp : Nat) (w : Waypoint) (l : PathColl)
    (p : List Waypoint) (h : (l.filter (ownedBy emp)).head? = some p) :
    ∃ a b, l = a ++ p :: b ∧ (∀ q ∈ a, ownedBy emp q = false) ∧
      appendToFirstOwned emp w l = a ++ (p ++ [w]) :: b := by
  induction l with
  | nil => simp at h
  | cons q l ih =>
    cases hq : ownedBy emp q with
    | true =>
      rw [List.filter_cons_of_pos hq] at h
      simp only [List.head?_cons, Option.some.injEq] at h
      subst h
      exact ⟨[], l, rfl, by simp, by simp [appendToFirstOwned, hq]⟩
    | false =>
      rw [List.filter_cons_of_neg (by simp [hq])] at h
      obtain ⟨a, b, hl, ha, happ⟩ := ih h
      refine ⟨q :: a, b, by simp [hl], ?_, ?_⟩
      · intro r hr
        rcases List.mem_cons.mp hr with rfl | hr
        · exact hq
        · exact ha r hr
      · simp [appendToFirstOwned, hq, happ]

theorem appendToLastOwned_spec (emp : Nat) (w : Waypoint) (s : PathColl)
    (p : List Waypoint) (h : (userPaths emp s).getLast? = some p) :
    ∃ pre post, s = pre ++ p :: post ∧ (∀ q ∈ post, ownedBy emp q = false) ∧
      appendToLastOwned emp w s = pre ++ (p ++ [w]) :: post := by
  have h' : (s.reverse.filter (ownedBy emp)).head? = some p := by
    rw [List.filter_reverse, List.head?_reverse]
    exact h
  obtain ⟨a, b, hl, ha, happ⟩ := appendToFirstOwned_spec emp w s.reverse p h'
  refine ⟨b.reverse, a.reverse, ?_, ?_, ?_⟩
  · have := congrArg List.reverse hl
    simpa using this
  · intro q hq
    exact ha q (List.mem_reverse.mp hq)
  · unfold appendToLastOwned
    rw [happ]
    simp

theorem userPaths_push_owned (emp : Nat) (sub : Submission) (s : PathColl) :
    userPaths emp (s ++ [[mkWaypoint emp sub]])
      = userPaths emp s ++ [[mkWaypoint emp sub]] := by
  unfold userPaths
  rw [List.filter_append]
  simp [ownedBy, mkWaypoint]

theorem userPaths_push_other {emp emp' : Nat} (hne : emp' ≠ emp) (sub : Submission)
    (s : PathColl) :
    userPaths emp' (s ++ [[mkWaypoint emp sub]]) = userPaths emp' s := by
  unfold userPaths
  rw [List.filter_append]
  have : ownedBy emp' [mkWaypoint emp sub] = false := by
    simp [ownedBy, mkWaypoint]
    exact Ne.symm hne
  simp [this]

theorem userPaths_decomp (emp : Nat) (s : PathColl) (p : List Waypoint)
    (pre post : PathColl) (hs : s = pre ++ p :: post) (hp : ownedBy emp p = true)
    (hpost : ∀ q ∈ post, ownedBy emp q = false) :
    userPaths emp s = userPaths emp pre ++ [p] := by
  subst hs
  unfold userPaths
  rw [List.filter_append, List.filter_cons_of_pos hp]
  have : post.filter (ownedBy emp) = [] := List.filter_eq_nil_iff.mpr (by
    intro q hq
    simp [hpost q hq])
  rw [this]

theorem userPaths_appendToLastOwned (emp : Nat) (w : Waypoint) (s : PathColl)
    (p : List Waypoint) (h : (userPaths emp s).getLast? = some p) :
    userPaths emp (appendToLastOwned emp w s)
      = (userPaths emp s).dropLast ++ [p ++ [w]] := by
  obtain ⟨pre, post, hs, hpost, happ⟩ := appendToLastOwned_spec emp w s p h
  have hpmem : p ∈ userPaths emp s := by
    have hne : userPaths emp s ≠ [] := by
      intro hz
      rw [hz] at h
      simp at h
    have := List.getLast?_eq_getLast _ hne
    rw [h] at this
    simp only [Option.some.injEq] at this
    rw [this]
    exact List.getLast_mem hne
  have hp : ownedBy emp p = true := List.of_mem_filter hpmem
  have h₁ := userPaths_decomp emp s p pre post hs hp hpost
  have h₂ : userPaths emp (pre ++ (p ++ [w]) :: post) = userPaths emp pre ++ [p ++ [w]] :=
    userPaths_decomp emp _ (p ++ [w]) pre post rfl
      (by rw [ownedBy_append (ownedBy_ne_nil hp)]; exact hp) hpost
  rw [happ, h₂, h₁, List.dropLast_concat]

theorem ownedBy_other {emp emp' : Nat} (hne : emp' ≠ emp) {p : List Waypoint}
    (hp : ownedBy emp p = true) : ownedBy emp' p = false := by
  obtain ⟨w₀, t, rfl, hw⟩ := ownedBy_iff.mp hp
  simp [ownedBy, hw]
  exact Ne.symm hne

theorem userPaths_appendToLastOwned_other {emp emp' : Nat} (hne : emp' ≠ emp)
    (w : Waypoint) (s : PathColl) (p : List Waypoint)
    (h : (userPaths emp s).getLast? = some p) :
    userPaths emp' (appendToLastOwned emp w s) = userPaths emp' s := by
  obtain ⟨pre, post, hs, hpost, happ⟩ := appendToLastOwned_spec emp w s p h
  have hpmem : p ∈ userPaths emp s := by
    have hnz : userPaths emp s ≠ [] := by
      intro hz
      rw [hz] at h
      simp at h
    have := List.getLast?_eq_getLast _ hnz
    rw [h] at this
    simp only [Option.some.injEq] at this
    rw [this]
    exact List.getLast_mem hnz
  have hp : ownedBy emp p = true := List.of_mem_filter hpmem
  have hfalse : ownedBy emp' p = false := ownedBy_other hne hp
  rw [happ, hs]
  unfold userPaths
  rw [List.filter_append, List.filter_append, List.filter_cons, List.filter_cons,
    ownedBy_append (ownedBy_ne_nil hp), hfalse]
  simp

theorem hasIncompletePath_eq_none {emp : Nat} {s : PathColl}
    (h : (userPaths emp s).getLast? = none) : hasIncompletePath emp s = false := by
  unfold hasIncompletePath
  rw [h]

theorem hasIncompletePath_eq_some {emp : Nat} {s : PathColl} {p : List Waypoint}
    (h : (userPaths emp s).getLast? = some p) :
    hasIncompletePath emp s = isOpenPath p := by
  unfold hasIncompletePath
  rw [h]

theorem isOpenPath_eq_last {p : List Waypoint} {w : Waypoint}
    (h : p.getLast? = some w) : isOpenPath p = !w.isEnd := by
  unfold isOpenPath
  rw [h]

theorem isOpenPath_eq_none {p : List Waypoint} (h : p.getLast? = none) :
    isOpenPath p = false := by
  unfold isOpenPath
  rw [h]

theorem getLast?_of_incomplete {emp : Nat} {s : PathColl}
    (h : hasIncompletePath emp s = true) :
    ∃ p, (userPaths emp s).getLast? = some p ∧ isOpenPath p = true := by
  cases hl : (userPaths emp s).getLast? with
  | none => rw [hasIncompletePath_eq_none hl] at h; cases h
  | some p =>
    refine ⟨p, rfl, ?_⟩
    rw [← hasIncompletePath_eq_some hl]
    exact h

theorem hasIncompletePath_iff (emp : Nat) (s : PathColl) :
    hasIncompletePath emp s = true ↔
      ∃ p w, (userPaths emp s).getLast? = some p ∧ p.getLast? = some w ∧
        w.isEnd = false := by
  constructor
  · intro hb
    obtain ⟨p, hp, ho⟩ := getLast?_of_incomplete hb
    cases hw : p.getLast? with
    | none => rw [isOpenPath_eq_none hw] at ho; cases ho
    | some w =>
      rw [isOpenPath_eq_last hw] at ho
      exact ⟨p, w, hp, hw, by simpa using ho⟩
  · rintro ⟨p, w, hp, hw, hend⟩
    rw [hasIncompletePath_eq_some hp, isOpenPath_eq_last hw, hend]
    rfl

/-! ### Reachability invariants of the path builder -/

/-- For each employee, every owned path except possibly the last one is
closed: the single-open-path discipline. -/
def OpenInv (s : PathColl) : Prop :=
  ∀ emp, ∀ p ∈ (userPaths emp s).dropLast, isOpenPath p = false

/-- Every stored path is non-empty and begins with a start waypoint. -/
def StartInv (s : PathColl) : Prop :=
  ∀ p ∈ s, ∃ w t, p = w :: t ∧ w.isStart = true

theorem all_closed_of_not_incomplete {emp : Nat} {s : PathColl}
    (inv : ∀ p ∈ (userPaths emp s).dropLast, isOpenPath p = false)
    (h : hasIncompletePath emp s = false) :
    ∀ p ∈ userPaths emp s, isOpenPath p = false := by
  intro p hp
  cases hl : (userPaths emp s).getLast? with
  | none =>
    rw [List.getLast?_eq_none_iff] at hl
    rw [hl] at hp
    cases hp
  | some q =>
    have hnz : userPaths emp s ≠ [] := by
      intro hz
      rw [hz] at hl
      cases hl
    have hq : isOpenPath q = false := by
      rw [hasIncompletePath_eq_some hl] at h
      exact h
    rw [← List.dropLast_append_getLast hnz] at hp
    rcases List.mem_append.mp hp with h₁ | h₂
    · exact inv p h₁
    · have hpq : p = (userPaths emp s).getLast hnz := by simpa using h₂
      have hgl := List.getLast?_eq_getLast _ hnz
      rw [hl] at hgl
      simp only [Option.some.injEq] at hgl
      rw [hpq, ← hgl]
      exact hq

theorem accepted_state {emp : Nat} {sub : Submission} {s s' : PathColl}
    (h : addWaypoint emp sub s = (.accepted, s')) :
    (sub.isStart = true ∧ hasIncompletePath emp s = false ∧
      s' = s ++ [[mkWaypoint emp sub]]) ∨
    (sub.isStart = false ∧ hasIncompletePath emp s = true ∧
      s' = appendToLastOwned emp (mkWaypoint emp sub) s) := by
  cases hstart : sub.isStart with
  | true =>
    cases hinc : hasIncompletePath emp s with
    | true => simp [addWaypoint, hstart, hinc] at h
    | false =>
      left
      refine ⟨rfl, rfl, ?_⟩
      simp [addWaypoint, hstart, hinc] at h
      exact h.symm
  | false =>
    cases hinc : hasIncompletePath emp s with
    | false =>
      cases hend : sub.isEnd <;> simp [addWaypoint, hstart, hend, hinc] at h
    | true =>
      right
      refine ⟨rfl, rfl, ?_⟩
      cases hend : sub.isEnd <;> simp [addWaypoint, hstart, hend, hinc] at h <;>
        exact h.symm

theorem openInv_step {emp : Nat} {sub : Submission} {s s' : PathColl}
    (inv : OpenInv s) (h : addWaypoint emp sub s = (.accepted, s')) : OpenInv s' := by
  rcases accepted_state h with ⟨_, hinc, rfl⟩ | ⟨_, hinc, rfl⟩
  · intro e p hp
    by_cases he : e = emp
    · subst he
      rw [userPaths_push_owned, List.dropLast_concat] at hp
      exact all_closed_of_not_incomplete (inv e) hinc p hp
    · rw [userPaths_push_other he] at hp
      exact inv e p hp
  · obtain ⟨q, hq, -⟩ := getLast?_of_incomplete hinc
    intro e p hp
    by_cases he : e = emp
    · subst he
      rw [userPaths_appendToLastOwned e _ s q hq, List.dropLast_concat] at hp
      exact inv e p hp
    · rw [userPaths_appendToLastOwned_other he _ s q hq] at hp
      exact inv e p hp

theorem startInv_step {emp : Nat} {sub : Submission} {s s' : PathColl}
    (inv : StartInv s) (h : addWaypoint emp sub s = (.accepted, s')) : StartInv s' := by
  rcases accepted_state h with ⟨hstart, hinc, rfl⟩ | ⟨hstart, hinc, rfl⟩
  · intro p hp
    rcases List.mem_append.mp hp with h₁ | h₂
    · exact inv p h₁
    · have : p = [mkWaypoint emp sub] := by simpa using h₂
      exact ⟨mkWaypoint emp sub, [], this, by simp [mkWaypoint, hstart]⟩
  · obtain ⟨q, hq, -⟩ := getLast?_of_incomplete hinc
    obtain ⟨pre, post, hs, hpost, happ⟩ :=
      appendToLastOwned_spec emp (mkWaypoint emp sub) s q hq
    intro p hp
    rw [happ] at hp
    rcases List.mem_append.mp hp with h₁ | h₂
    · exact inv p (by rw [hs]; exact List.mem_append.mpr (Or.inl h₁))
    · rcases List.mem_cons.mp h₂ with rfl | h₃
      · obtain ⟨w, t, hqe, hw⟩ := inv q (by rw [hs]; simp)
        exact ⟨w, t ++ [mkWaypoint emp sub], by rw [hqe]; simp, hw⟩
      · exact inv p (by rw [hs]; simp [h₃])

theorem reachable_openInv {s : PathColl} (h : Reachable s) : OpenInv s := by
  induction h with
  | nil => intro emp p hp; cases hp
  | step emp sub t t' _ heq ih => exact openInv_step ih heq

theorem reachable_startInv {s : PathColl} (h : Reachable s) : StartInv s := by
  induction h with
  | nil => intro p hp; cases hp
  | step emp sub t t' _ heq ih => exact startInv_step ih heq

/-- No stored waypoint carries both flags (holds only under the documented
precondition that submissions never set both). -/
def FlagInv (s : PathColl) : Prop :=
  ∀ p ∈ s, ∀ w ∈ p, w.isStart = false ∨ w.isEnd = false

theorem flagInv_step {emp : Nat} {sub : Submission} {s s' : PathColl}
    (inv : FlagInv s) (hwf : sub.isStart = false ∨ sub.isEnd = false)
    (h : addWaypoint emp sub s = (.accepted, s')) : FlagInv s' := by
  have hw : (mkWaypoint emp sub).isStart = false ∨ (mkWaypoint emp sub).isEnd = false := by
    simpa [mkWaypoint] using hwf
  rcases accepted_state h with ⟨_, hinc, rfl⟩ | ⟨_, hinc, rfl⟩
  · intro p hp w hwmem
    rcases List.mem_append.mp hp with h₁ | h₂
    · exact inv p h₁ w hwmem
    · have hpe : p = [mkWaypoint emp sub] := by simpa using h₂
      rw [hpe] at hwmem
      have : w = mkWaypoint emp sub := by simpa using hwmem
      rw [this]
      exact hw
  · obtain ⟨q, hq, -⟩ := getLast?_of_incomplete hinc
    obtain ⟨pre, post, hs, hpost, happ⟩ :=
      appendToLastOwned_spec emp (mkWaypoint emp sub) s q hq
    intro p hp w hwmem
    rw [happ] at hp
    rcases List.mem_append.mp hp with h₁ | h₂
    · exact inv p (by rw [hs]; exact List.mem_append.mpr (Or.inl h₁)) w hwmem
    · rcases List.mem_cons.mp h₂ with rfl | h₃
      · rcases List.mem_append.mp hwmem with hw₁ | hw₂
        · exact inv q (by rw [hs]; simp) w hw₁
        · have : w = mkWaypoint emp sub := by simpa using hw₂
          rw [this]
          exact hw
      · exact inv p (by rw [hs]; simp [h₃]) w hwmem

theorem reachableWF_flagInv {s : PathColl} (h : ReachableWF s) : FlagInv s := by
  induction h with
  | nil => intro p hp; cases hp
  | step emp sub t t' _ hwf heq ih => exact flagInv_step ih hwf heq

/-! ### Claim theorems: the path-building state machine -/

/-- C1: in every project state reachable from an empty project by accepted
`addWaypoint` calls, each employee owns at most one open path (a path whose
last waypoint does not have `isEnd = true`). -/
theorem reachable_at_most_one_open_path {s : PathColl} (h : Reachable s)
    (emp : Nat) : (userPaths emp s).countP isOpenPath ≤ 1 := by
  have inv := reachable_openInv h emp
  by_cases hne : userPaths emp s = []
  · simp [hne]
  · have hdec := List.dropLast_append_getLast hne
    have h₀ : (userPaths emp s).dropLast.countP isOpenPath = 0 :=
      List.countP_eq_zero.mpr (by
        intro p hp
        simp [inv p hp])
    calc (userPaths emp s).countP isOpenPath
        = ((userPaths emp s).dropLast
            ++ [(userPaths emp s).getLast hne]).countP isOpenPath := by rw [hdec]
      _ ≤ 1 := by
          rw [List.countP_append, h₀]
          simp only [List.countP_cons, List.countP_nil]
          split <;> omega

/-- Witness for C1 at a concrete one-step reachable state. -/
theorem reachable_at_most_one_open_path_witness :
    (userPaths 0 [[mkWaypoint 0 ⟨1, true, false, 100⟩]]).countP isOpenPath ≤ 1 :=
  reachable_at_most_one_open_path
    (Reachable.step 0 ⟨1, true, false, 100⟩ [] [[mkWaypoint 0 ⟨1, true, false, 100⟩]]
      Reachable.nil rfl) 0

/-- C10: in every reachable project state, every stored path is non-empty and
its first waypoint has `isStart = true`, so the ownership filter's unguarded
`path[0].pathOwner` access never reads a missing element. -/
theorem reachable_paths_nonempty_start {s : PathColl} (h : Reachable s) :
    ∀ p ∈ s, ∃ w t, p = w :: t ∧ w.isStart = true :=
  reachable_startInv h

/-- Witness for C10 at a concrete one-step reachable state. -/
theorem reachable_paths_nonempty_start_witness :
    ∃ w t, [mkWaypoint 0 ⟨1, true, false, 100⟩] = w :: t ∧ w.isStart = true :=
  reachable_paths_nonempty_start
    (Reachable.step 0 ⟨1, true, false, 100⟩ [] [[mkWaypoint 0 ⟨1, true, false, 100⟩]]
      Reachable.nil rfl)
    [mkWaypoint 0 ⟨1, true, false, 100⟩] (by simp)

/-- C5 counterexample: the handler never checks that `isStart` and `isEnd`
are mutually exclusive; a submission carrying both flags is accepted through
the start branch on an empty project and stored with both flags true, so the
claimed invariant fails on a reachable state. -/
theorem both_flags_reachable_counterexample :
    Reachable [[mkWaypoint 0 ⟨1, true, true, 100⟩]] ∧
      [mkWaypoint 0 ⟨1, true, true, 100⟩] ∈ [[mkWaypoint 0 ⟨1, true, true, 100⟩]] ∧
      mkWaypoint 0 ⟨1, true, true, 100⟩ ∈ [mkWaypoint 0 ⟨1, true, true, 100⟩] ∧
      (mkWaypoint 0 ⟨1, true, true, 100⟩).isStart = true ∧
      (mkWaypoint 0 ⟨1, true, true, 100⟩).isEnd = true :=
  ⟨Reachable.step 0 ⟨1, true, true, 100⟩ [] [[mkWaypoint 0 ⟨1, true, true, 100⟩]]
      Reachable.nil rfl,
    by simp, by simp, rfl, rfl⟩

/-- C5 (amended): in every project state reachable through accepted
`addWaypoint` calls whose submissions honour the documented precondition
that `isStart` and `isEnd` are mutually exclusive, no stored waypoint has
both flags true. -/
theorem reachableWF_no_both_flags {s : PathColl} (h : ReachableWF s) :
    ∀ p ∈ s, ∀ w ∈ p, w.isStart = false ∨ w.isEnd = false :=
  reachableWF_flagInv h

/-- Witness for C5 (amended) at a concrete one-step reachable state. -/
theorem reachableWF_no_both_flags_witness :
    (mkWaypoint 0 ⟨1, true, false, 100⟩).isStart = false ∨
      (mkWaypoint 0 ⟨1, true, false, 100⟩).isEnd = false :=
  reachableWF_no_both_flags
    (ReachableWF.step 0 ⟨1, true, false, 100⟩ [] [[mkWaypoint 0 ⟨1, true, false, 100⟩]]
      ReachableWF.nil (Or.inr rfl) rfl)
    [mkWaypoint 0 ⟨1, true, false, 100⟩] (by simp)
    (mkWaypoint 0 ⟨1, true, false, 100⟩) (by simp)

/-- C2: a start submission is rejected with the start path-conflict exactly
when the employee's last owned path exists and its last waypoint does not
have `isEnd = true`; otherwise it appends a brand-new singleton path to the
end of the project's path collection.  The hypothesis `hne` scopes the claim
to states whose paths are non-empty (the only states the source can read
without throwing; all reachable states satisfy it). -/
theorem submit_start_spec (emp : Nat) (sub : Submission) (s : PathColl)
    (hS : sub.isStart = true) (hne : ∀ p ∈ s, p ≠ []) :
    ((∃ p w, (userPaths emp s).getLast? = some p ∧ p.getLast? = some w ∧
        w.isEnd = false) →
      addWaypoint emp sub s = (.rejected .startWhileOpen, s)) ∧
    ((¬ ∃ p w, (userPaths emp s).getLast? = some p ∧ p.getLast? = some w ∧
        w.isEnd = false) →
      addWaypoint emp sub s = (.accepted, s ++ [[mkWaypoint emp sub]])) := by
  constructor
  · intro hopen
    have hinc : hasIncompletePath emp s = true := (hasIncompletePath_iff emp s).mpr hopen
    simp [addWaypoint, hS, hinc]
  · intro hclosed
    have hinc : hasIncompletePath emp s = false := by
      cases hv : hasIncompletePath emp s
      · rfl
      · exact absurd ((hasIncompletePath_iff emp s).mp hv) hclosed
    simp [addWaypoint, hS, hinc]

/-- Witness for C2: a start submission against the empty project is accepted
and creates a new singleton path. -/
theorem submit_start_spec_witness :
    ((∃ p w, (userPaths 0 []).getLast? = some p ∧ p.getLast? = some w ∧
        w.isEnd = false) →
      addWaypoint 0 ⟨1, true, false, 100⟩ [] = (.rejected .startWhileOpen, [])) ∧
    ((¬ ∃ p w, (userPaths 0 []).getLast? = some p ∧ p.getLast? = some w ∧
        w.isEnd = false) →
      addWaypoint 0 ⟨1, true, false, 100⟩ [] =
        (.accepted, [] ++ [[mkWaypoint 0 ⟨1, true, false, 100⟩]])) :=
  submit_start_spec 0 ⟨1, true, false, 100⟩ [] rfl (by simp)

/-- C3: an end or midpoint submission is rejected with the matching
path-conflict exactly when the employee has no open last path; otherwise the
candidate waypoint is appended in place to that last owned path (an `isEnd`
candidate closing it), every other path untouched.  `hne` scopes the claim
as in C2. -/
theorem submit_extend_spec (emp : Nat) (sub : Submission) (s : PathColl)
    (hS : sub.isStart = false) (hne : ∀ p ∈ s, p ≠ []) :
    ((¬ ∃ p w, (userPaths emp s).getLast? = some p ∧ p.getLast? = some w ∧
        w.isEnd = false) →
      addWaypoint emp sub s =
        (.rejected (if sub.isEnd then .endWithoutOpen else .midpointWithoutOpen), s)) ∧
    (∀ p w₀, (userPaths emp s).getLast? = some p → p.getLast? = some w₀ →
      w₀.isEnd = false →
      ∃ pre post, s = pre ++ p :: post ∧ (∀ q ∈ post, ownedBy emp q = false) ∧
        addWaypoint emp sub s =
          (.accepted, pre ++ (p ++ [mkWaypoint emp sub]) :: post)) := by
  constructor
  · intro hclosed
    have hinc : hasIncompletePath emp s = false := by
      cases hv : hasIncompletePath emp s
      · rfl
      · exact absurd ((hasIncompletePath_iff emp s).mp hv) hclosed
    cases hend : sub.isEnd <;> simp [addWaypoint, hS, hend, hinc]
  · intro p w₀ hp hw hend
    have hinc : hasIncompletePath emp s = true :=
      (hasIncompletePath_iff emp s).mpr ⟨p, w₀, hp, hw, hend⟩
    obtain ⟨pre, post, hs, hpost, happ⟩ :=
      appendToLastOwned_spec emp (mkWaypoint emp sub) s p hp
    refine ⟨pre, post, hs, hpost, ?_⟩
    cases hend' : sub.isEnd <;> simp [addWaypoint, hS, hend', hinc, happ]

/-- Witness for C3: a midpoint submission against a project holding one open
path appends to that path. -/
theorem submit_extend_spec_witness :
    ((¬ ∃ p w,
        (userPaths 0 [[mkWaypoint 0 ⟨1, true, false, 100⟩]]).getLast? = some p ∧
        p.getLast? = some w ∧ w.isEnd = false) →
      addWaypoint 0 ⟨2, false, false, 200⟩ [[mkWaypoint 0 ⟨1, true, false, 100⟩]] =
        (.rejected (if (⟨2, false, false, 200⟩ : Submission).isEnd then .endWithoutOpen
          else .midpointWithoutOpen), [[mkWaypoint 0 ⟨1, true, false, 100⟩]])) ∧
    (∀ p w₀,
      (userPaths 0 [[mkWaypoint 0 ⟨1, true, false, 100⟩]]).getLast? = some p →
      p.getLast? = some w₀ → w₀.isEnd = false →
      ∃ pre post, [[mkWaypoint 0 ⟨1, true, false, 100⟩]] = pre ++ p :: post ∧
        (∀ q ∈ post, ownedBy 0 q = false) ∧
        addWaypoint 0 ⟨2, false, false, 200⟩ [[mkWaypoint 0 ⟨1, true, false, 100⟩]] =
          (.accepted, pre ++ (p ++ [mkWaypoint 0 ⟨2, false, false, 200⟩]) :: post)) :=
  submit_extend_spec 0 ⟨2, false, false, 200⟩ [[mkWaypoint 0 ⟨1, true, false, 100⟩]]
    rfl (by simp)

/-- C6: a rejected submission leaves the project's path collection completely
unchanged — every rejection branch returns before any mutation. -/
theorem submit_reject_no_mutation (emp : Nat) (sub : Submission) (s : PathColl)
    (e : PathConflict) (h : (addWaypoint emp sub s).1 = .rejected e) :
    (addWaypoint emp sub s).2 = s := by
  cases hstart : sub.isStart <;> cases hend : sub.isEnd <;>
    cases hinc : hasIncompletePath emp s <;>
      simp [addWaypoint, hstart, hend, hinc] at h ⊢

/-- Witness for C6: the rejected midpoint-on-empty submission leaves the
empty collection unchanged. -/
theorem submit_reject_no_mutation_witness :
    (addWaypoint 0 ⟨1, false, false, 100⟩ []).2 = [] :=
  submit_reject_no_mutation 0 ⟨1, false, false, 100⟩ [] .midpointWithoutOpen rfl

/-! ### Claim theorems: segment reconstruction -/

/-- C4: when an employee's flattened waypoint stream in a project is a single
closed path `[st, m₁, m₂, en]`, the segment scan emits exactly one closed
segment holding all four waypoints in original order, dated and sorted by the
end waypoint's timestamp (`dayOfTimestamp` being its UTC calendar day). -/
theorem reconstruct_closed_path (pr : ProjectInfo) (emp : Nat)
    (st m₁ m₂ en : Waypoint)
    (hstream : employeeWaypoints emp pr = [st, m₁, m₂, en])
    (hss : st.isStart = true) (hse : st.isEnd = false)
    (hm₁s : m₁.isStart = false) (hm₁e : m₁.isEnd = false)
    (hm₂s : m₂.isStart = false) (hm₂e : m₂.isEnd = false)
    (hes : en.isStart = false) (hee : en.isEnd = true) :
    extractSegments pr emp = [mkSegment pr [st, m₁, m₂, en] en.timestamp] := by
  unfold extractSegments
  rw [hstream]
  simp [segScan, openEmit, hss, hse, hm₁s, hm₁e, hm₂s, hm₂e, hes, hee]

/-- Concrete waypoints of one closed four-point path, used by witnesses. -/
def exSt : Waypoint :=
  { id := 1, isStart := true, isEnd := false, createdBy := 0, pathOwner := 0,
    timestamp := 100 }

def exM₁ : Waypoint :=
  { id := 2, isStart := false, isEnd := false, createdBy := 0, pathOwner := 0,
    timestamp := 200 }

def exM₂ : Waypoint :=
  { id := 3, isStart := false, isEnd := false, createdBy := 0, pathOwner := 0,
    timestamp := 300 }

def exEn : Waypoint :=
  { id := 4, isStart := false, isEnd := true, createdBy := 0, pathOwner := 0,
    timestamp := 90000000400 }

def exPr : ProjectInfo :=
  { projectId := 7, circle := 1, division := 2, description := 3,
    waypoints := [[exSt, exM₁, exM₂, exEn]] }

/-- Witness for C4 on a concrete single-closed-path project. -/
theorem reconstruct_closed_path_witness :
    extractSegments exPr 0 = [mkSegment exPr [exSt, exM₁, exM₂, exEn] exEn.timestamp] :=
  reconstruct_closed_path exPr 0 exSt exM₁ exM₂ exEn (by decide) rfl rfl rfl rfl
    rfl rfl rfl rfl

theorem segScan_midpoints (pr : ProjectInfo) :
    ∀ (mids : List Waypoint),
      (∀ m ∈ mids, m.isStart = false ∧ m.isEnd = false) →
      ∀ (h : Waypoint) (acc : List Waypoint), mids ≠ [] →
        segScan pr (h :: acc) mids = [mkSegment pr ((h :: acc) ++ mids) h.timestamp] := by
  intro mids
  induction mids with
  | nil => intro _ h acc hcon; exact absurd rfl hcon
  | cons m rest ih =>
    intro hm h acc _
    have hms : m.isStart = false := (hm m (by simp)).1
    have hme : m.isEnd = false := (hm m (by simp)).2
    cases rest with
    | nil => simp [segScan, openEmit, hms, hme]
    | cons m' rest' =>
      have hrec := ih (fun x hx => hm x (by simp [hx])) h (acc ++ [m]) (by simp)
      have hstep : segScan pr (h :: acc) (m :: m' :: rest')
          = segScan pr (h :: (acc ++ [m])) (m' :: rest') := by
        conv_lhs => rw [segScan]
        simp [openEmit, hms, hme]
      rw [hstep, hrec]
      simp


/-- The accumulator after the reset-or-append step of one scan iteration. -/
def scanAccum (cur : List Waypoint) (wp : Waypoint) : List Waypoint :=
  if wp.isStart then [wp] else if cur.isEmpty then cur else cur ++ [wp]

/-- The accumulator carried into the next scan iteration (cleared when a
closed segment was emitted). -/
def scanCarry (cur : List Waypoint) (wp : Waypoint) : List Waypoint :=
  if wp.isEnd && !(scanAccum cur wp).isEmpty then [] else scanAccum cur wp

theorem segScan_cons (pr : ProjectInfo) (cur : List Waypoint) (wp : Waypoint)
    (rest : List Waypoint) :
    segScan pr cur (wp :: rest) =
      (if wp.isEnd && !(scanAccum cur wp).isEmpty then
        [mkSegment pr (scanAccum cur wp) wp.timestamp] else [])
      ++ openEmit pr rest (scanCarry cur wp)
      ++ segScan pr (scanCarry cur wp) rest := rfl

theorem mem_scanAccum {cur : List Waypoint} {wp x : Waypoint}
    (h : x ∈ scanAccum cur wp) : x ∈ cur ∨ x = wp := by
  unfold scanAccum at h
  split at h
  · right; simpa using h
  · split at h
    · left; exact h
    · rcases List.mem_append.mp h with h₁ | h₁
      · left; exact h₁
      · right; simpa using h₁

theorem mem_scanCarry {cur : List Waypoint} {wp x : Waypoint}
    (h : x ∈ scanCarry cur wp) : x ∈ cur ∨ x = wp := by
  unfold scanCarry at h
  split at h
  · cases h
  · exact mem_scanAccum h

theorem mem_openEmit {pr : ProjectInfo} {rest c : List Waypoint} {sg : Segment}
    (h : sg ∈ openEmit pr rest c) : sg.segment = c := by
  unfold openEmit at h
  split at h
  · simp at h
    rw [h]
    rfl
  · cases h

theorem segScan_segment_mem (pr : ProjectInfo) :
    ∀ (stream cur : List Waypoint) (sg : Segment), sg ∈ segScan pr cur stream →
      ∀ w ∈ sg.segment, w ∈ cur ∨ w ∈ stream := by
  intro stream
  induction stream with
  | nil =>
    intro cur sg hsg
    rw [segScan] at hsg
    cases hsg
  | cons wp rest ih =>
    intro cur sg hsg w hw
    rw [segScan_cons] at hsg
    rcases List.mem_append.mp hsg with hsg₁ | hrec
    · rcases List.mem_append.mp hsg₁ with hclosed | hopen
      · have hseg : sg.segment = scanAccum cur wp := by
          split at hclosed
          · have hsge : sg = mkSegment pr (scanAccum cur wp) wp.timestamp := by
              simpa using hclosed
            rw [hsge]
            rfl
          · cases hclosed
        rw [hseg] at hw
        rcases mem_scanAccum hw with h₁ | h₁
        · left; exact h₁
        · right; rw [h₁]; simp
      · have hseg : sg.segment = scanCarry cur wp := mem_openEmit hopen
        rw [hseg] at hw
        rcases mem_scanCarry hw with h₁ | h₁
        · left; exact h₁
        · right; rw [h₁]; simp
    · rcases ih (scanCarry cur wp) sg hrec w hw with h₁ | h₁
      · rcases mem_scanCarry h₁ with h₂ | h₂
        · left; exact h₂
        · right; rw [h₂]; simp
      · right; simp [h₁]

theorem employeeWaypoints_remove {emp emp₂ : Nat} (hne : emp ≠ emp₂)
    (pr : ProjectInfo) :
    employeeWaypoints emp (removeEmployeeWaypoints emp₂ pr)
      = employeeWaypoints emp pr := by
  unfold employeeWaypoints removeEmployeeWaypoints
  simp only []
  rw [← List.filter_flatten, List.filter_filter]
  apply List.filter_congr
  intro w _
  by_cases h : w.createdBy = emp
  · simp [h, bne_iff_ne]
    exact fun hno => absurd (h ▸ hno) hne
  · simp [h]

theorem segScan_waypoints_update (pr : ProjectInfo) (ws : PathColl) :
    ∀ (stream cur : List Waypoint),
      segScan { pr with waypoints := ws } cur stream = segScan pr cur stream := by
  intro stream
  induction stream with
  | nil => intro cur; rfl
  | cons wp rest ih =>
    intro cur
    rw [segScan_cons, segScan_cons, ih]
    simp [mkSegment, openEmit]

/-- C9: noninterference across employees — every waypoint in one employee's
reconstruction output was created by that employee, and the output is
identical when the other employee's waypoints are removed from the project
history. -/
theorem reconstruct_noninterference (pr : ProjectInfo) (emp emp₂ : Nat)
    (hne : emp ≠ emp₂) :
    (∀ sg ∈ extractSegments pr emp, ∀ w ∈ sg.segment, w.createdBy = emp) ∧
    extractSegments (removeEmployeeWaypoints emp₂ pr) emp
      = extractSegments pr emp := by
  constructor
  · intro sg hsg w hw
    rcases segScan_segment_mem pr (employeeWaypoints emp pr) [] sg hsg w hw with
      h₁ | h₁
    · cases h₁
    · have := List.of_mem_filter h₁
      simpa using this
  · unfold extractSegments
    rw [employeeWaypoints_remove hne pr]
    exact segScan_waypoints_update pr _ (employeeWaypoints emp pr) []

/-- Witness for C9 on a concrete two-employee interleaved project. -/
theorem reconstruct_noninterference_witness :
    (∀ sg ∈ extractSegments
        ⟨7, 1, 2, 3, [[exSt, exM₁], [⟨5, true, false, 1, 1, 150⟩]]⟩ 0,
      ∀ w ∈ sg.segment, w.createdBy = 0) ∧
    extractSegments
        (removeEmployeeWaypoints 1 ⟨7, 1, 2, 3, [[exSt, exM₁], [⟨5, true, false, 1, 1, 150⟩]]⟩) 0
      = extractSegments ⟨7, 1, 2, 3, [[exSt, exM₁], [⟨5, true, false, 1, 1, 150⟩]]⟩ 0 :=
  reconstruct_noninterference ⟨7, 1, 2, 3, [[exSt, exM₁], [⟨5, true, false, 1, 1, 150⟩]]⟩
    0 1 (by decide)

/-- The open-segment flush never fires while waypoints remain in the
stream. -/
theorem openEmit_of_ne_nil (pr : ProjectInfo) (c : List Waypoint)
    {rest : List Waypoint} (h : rest ≠ []) : openEmit pr rest c = [] := by
  cases rest with
  | nil => exact absurd rfl h
  | cons r rs => rfl

/-- The accumulator left by scanning a stream prefix. -/
def scanFold (cur : List Waypoint) : List Waypoint → List Waypoint
  | [] => cur
  | wp :: rest => scanFold (scanCarry cur wp) rest

/-- The closed segments the scan emits over a stream prefix (the open flush
is excluded: it can only fire at the very end of the whole stream). -/
def closedEmits (pr : ProjectInfo) (cur : List Waypoint) :
    List Waypoint → List Segment
  | [] => []
  | wp :: rest =>
    (if wp.isEnd && !(scanAccum cur wp).isEmpty then
      [mkSegment pr (scanAccum cur wp) wp.timestamp] else [])
    ++ closedEmits pr (scanCarry cur wp) rest

/-- Splitting the scan at a non-empty suffix: the prefix contributes exactly
its closed emissions (no open flush can fire there) and hands its
accumulator to the suffix. -/
theorem segScan_append (pr : ProjectInfo) (suffix : List Waypoint)
    (hsuf : suffix ≠ []) :
    ∀ (pre cur : List Waypoint),
      segScan pr cur (pre ++ suffix)
        = closedEmits pr cur pre ++ segScan pr (scanFold cur pre) suffix := by
  intro pre
  induction pre with
  | nil => intro cur; simp [closedEmits, scanFold]
  | cons wp pre' ih =>
    intro cur
    have hne : pre' ++ suffix ≠ [] := by
      intro hc
      exact hsuf (List.append_eq_nil.mp hc).2
    rw [List.cons_append, segScan_cons, openEmit_of_ne_nil pr _ hne,
      ih (scanCarry cur wp)]
    simp [closedEmits, scanFold]

theorem scanAccum_getLast {cur : List Waypoint} {wp : Waypoint}
    (h : (scanAccum cur wp).isEmpty = false) :
    (scanAccum cur wp).getLast? = some wp := by
  cases hS : wp.isStart with
  | true => simp [scanAccum, hS]
  | false =>
    cases hC : cur.isEmpty with
    | true => simp [scanAccum, hS, hC] at h
    | false => simp [scanAccum, hS, hC, List.getLast?_concat]

/-- Every segment emitted before the final flush is closed: its last
waypoint is the `isEnd` waypoint that triggered the emission. -/
theorem closedEmits_closed (pr : ProjectInfo) :
    ∀ (l cur : List Waypoint), ∀ sg ∈ closedEmits pr cur l,
      ∃ w, sg.segment.getLast? = some w ∧ w.isEnd = true := by
  intro l
  induction l with
  | nil =>
    intro cur sg hsg
    rw [closedEmits] at hsg
    cases hsg
  | cons wp rest ih =>
    intro cur sg hsg
    rw [closedEmits] at hsg
    rcases List.mem_append.mp hsg with h₁ | h₁
    · split at h₁
      · rename_i hcond
        rw [Bool.and_eq_true] at hcond
        have hend : wp.isEnd = true := hcond.1
        have hemp : (scanAccum cur wp).isEmpty = false := by
          have := hcond.2
          simpa using this
        have hsge : sg = mkSegment pr (scanAccum cur wp) wp.timestamp := by
          simpa using h₁
        refine ⟨wp, ?_, hend⟩
        rw [hsge]
        show (scanAccum cur wp).getLast? = some wp
        exact scanAccum_getLast hemp
      · cases h₁
    · exact ih (scanCarry cur wp) sg h₁

/-- Scanning a stream that is a bare start followed by midpoints only, from
any accumulator state: the start discards the accumulator and the whole
stream is flushed as one open segment dated by the start. -/
theorem segScan_open_tail (pr : ProjectInfo) (st : Waypoint)
    (mids : List Waypoint) (hss : st.isStart = true) (hse : st.isEnd = false)
    (hm : ∀ m ∈ mids, m.isStart = false ∧ m.isEnd = false) (cur : List Waypoint) :
    segScan pr cur (st :: mids) = [mkSegment pr (st :: mids) st.timestamp] := by
  have hcar : scanCarry cur st = [st] := by simp [scanCarry, scanAccum, hss, hse]
  cases mids with
  | nil =>
    rw [segScan_cons, hcar]
    simp [scanAccum, hss, hse, openEmit, segScan]
  | cons m rest =>
    rw [segScan_cons, hcar, openEmit_of_ne_nil pr [st] (by simp)]
    have hmid := segScan_midpoints pr (m :: rest) hm st [] (by simp)
    simp only [scanAccum, hss, hse] at *
    simpa using hmid

/-- C8: when an employee's flattened per-project waypoint stream ends with an
unterminated path — a start waypoint, possibly followed by midpoints, with no
end waypoint — the scan emits exactly one open segment: the final segment of
the output is the unterminated run dated and sorted by its first (start)
waypoint's timestamp, every other emitted segment is closed, and that final
segment is itself open. -/
theorem reconstruct_open_path (pr : ProjectInfo) (emp : Nat)
    (pre : List Waypoint) (st : Waypoint) (mids : List Waypoint)
    (hstream : employeeWaypoints emp pr = pre ++ st :: mids)
    (hss : st.isStart = true) (hse : st.isEnd = false)
    (hm : ∀ m ∈ mids, m.isStart = false ∧ m.isEnd = false) :
    ∃ closed, extractSegments pr emp
        = closed ++ [mkSegment pr (st :: mids) st.timestamp] ∧
      (∀ sg ∈ closed, ∃ w, sg.segment.getLast? = some w ∧ w.isEnd = true) ∧
      (∃ w, (st :: mids).getLast? = some w ∧ w.isEnd = false) := by
  refine ⟨closedEmits pr [] pre, ?_, closedEmits_closed pr pre [], ?_⟩
  · unfold extractSegments
    rw [hstream, segScan_append pr (st :: mids) (by simp) pre [],
      segScan_open_tail pr st mids hss hse hm]
  · cases mids with
    | nil => exact ⟨st, rfl, hse⟩
    | cons m rest =>
      have hne₂ : m :: rest ≠ [] := by simp
      refine ⟨(m :: rest).getLast hne₂, ?_, (hm _ (List.getLast_mem hne₂)).2⟩
      rw [List.getLast?_cons_cons]
      exact List.getLast?_eq_getLast _ hne₂

/-- A midpoint of a second, unterminated path, used by the C8 witness. -/
def exM₃ : Waypoint :=
  { id := 6, isStart := false, isEnd := false, createdBy := 0, pathOwner := 0,
    timestamp := 90000000600 }

/-- A start waypoint of a second, unterminated path, used by the C8
witness. -/
def exSt₂ : Waypoint :=
  { id := 5, isStart := true, isEnd := false, createdBy := 0, pathOwner := 0,
    timestamp := 90000000500 }

/-- Concrete project whose stream holds a closed path followed by an
unterminated one, used by the C8 witness. -/
def exPrMixed : ProjectInfo :=
  { projectId := 9, circle := 1, division := 2, description := 3,
    waypoints := [[exSt, exM₁, exM₂, exEn], [exSt₂, exM₃]] }

/-- Witness for C8 on a concrete stream that ends with an unterminated path
after a closed one. -/
theorem reconstruct_open_path_witness :
    ∃ closed, extractSegments exPrMixed 0
        = closed ++ [mkSegment exPrMixed (exSt₂ :: [exM₃]) exSt₂.timestamp] ∧
      (∀ sg ∈ closed, ∃ w, sg.segment.getLast? = some w ∧ w.isEnd = true) ∧
      (∃ w, (exSt₂ :: [exM₃]).getLast? = some w ∧ w.isEnd = false) :=
  reconstruct_open_path exPrMixed 0 [exSt, exM₁, exM₂, exEn] exSt₂ [exM₃]
    (by decide) rfl rfl (by decide)

/-! ### Ordering of the reconstruction output -/

theorem segDescBy_trans : ∀ (a b c : Segment), segDescBy a b → segDescBy b c →
    segDescBy a c := by
  intro a b c h₁ h₂
  simp only [segDescBy, decide_eq_true_eq] at h₁ h₂ ⊢
  omega

theorem segDescBy_total : ∀ (a b : Segment), segDescBy a b || segDescBy b a := by
  intro a b
  simp only [segDescBy, Bool.or_eq_true, decide_eq_true_eq]
  omega

theorem dateDescBy_trans : ∀ (a b c : Nat × List Segment), dateDescBy a b →
    dateDescBy b c → dateDescBy a c := by
  intro a b c h₁ h₂
  simp only [dateDescBy, decide_eq_true_eq] at h₁ h₂ ⊢
  omega

theorem dateDescBy_total : ∀ (a b : Nat × List Segment),
    dateDescBy a b || dateDescBy b a := by
  intro a b
  simp only [dateDescBy, Bool.or_eq_true, decide_eq_true_eq]
  omega

theorem sortSegments_sorted (segs : List Segment) :
    (sortSegments segs).Pairwise (fun a b => b.timestamp ≤ a.timestamp) := by
  have h := List.sorted_mergeSort segDescBy_trans segDescBy_total segs
  exact h.imp (by
    intro a b hab
    simpa [segDescBy] using hab)

theorem insertGroup_keys (s : Segment) (acc : List (Nat × List Segment)) :
    (insertGroup s acc).map Prod.fst =
      if s.date ∈ acc.map Prod.fst then acc.map Prod.fst
      else acc.map Prod.fst ++ [s.date] := by
  induction acc with
  | nil => simp [insertGroup]
  | cons kg rest ih =>
    obtain ⟨k, g⟩ := kg
    by_cases hk : k = s.date
    · subst hk
      simp [insertGroup]
    · rw [insertGroup]
      rw [if_neg hk]
      simp only [List.map_cons, ih, List.mem_cons]
      by_cases hmem : s.date ∈ rest.map Prod.fst
      · rw [if_pos hmem, if_pos (Or.inr hmem)]
      · rw [if_neg hmem, if_neg (by
          rintro (h | h)
          · exact hk h.symm
          · exact hmem h)]
        simp

theorem groupByDate_keys_nodup (segs : List Segment) :
    ((groupByDate segs).map Prod.fst).Nodup := by
  suffices h : ∀ acc : List (Nat × List Segment), (acc.map Prod.fst).Nodup →
      ((segs.foldl (fun acc s => insertGroup s acc) acc).map Prod.fst).Nodup by
    exact h [] (by simp)
  induction segs with
  | nil => intro acc hacc; simpa using hacc
  | cons s rest ih =>
    intro acc hacc
    simp only [List.foldl_cons]
    apply ih
    rw [insertGroup_keys]
    by_cases hmem : s.date ∈ acc.map Prod.fst
    · rw [if_pos hmem]
      exact hacc
    · rw [if_neg hmem]
      simp [List.nodup_append, hacc, hmem]

theorem sortedDateGroups_sorted (segs : List Segment) :
    (sortedDateGroups segs).Pairwise (fun a b => b.1 < a.1) := by
  have hs := List.sorted_mergeSort dateDescBy_trans dateDescBy_total (groupByDate segs)
  have hperm : List.Perm (sortedDateGroups segs) (groupByDate segs) :=
    List.mergeSort_perm (groupByDate segs) dateDescBy
  have hnd : ((sortedDateGroups segs).map Prod.fst).Nodup :=
    ((hperm.map Prod.fst).nodup_iff).mpr (groupByDate_keys_nodup segs)
  have hne : (sortedDateGroups segs).Pairwise (fun a b => a.1 ≠ b.1) :=
    List.pairwise_map.mp hnd
  have hs' : (sortedDateGroups segs).Pairwise (fun a b => dateDescBy a b = true) := hs
  exact (hs'.and hne).imp (by
    intro a b hab
    have h₁ : b.1 ≤ a.1 := by simpa [dateDescBy] using hab.1
    exact lt_of_le_of_ne h₁ (Ne.symm hab.2))

/-- C7: the collected segments are sorted descending by their sort-key
timestamp, and the date-grouped output which the final response walks lists
strictly later dates before earlier ones — so of two segments on different
dates, the one with the later date appears first. -/
theorem reconstruct_output_ordering (prs : List ProjectInfo) (emp : Nat) :
    (sortSegments (allSegments prs emp)).Pairwise
      (fun a b => b.timestamp ≤ a.timestamp) ∧
    (sortedDateGroups (sortSegments (allSegments prs emp))).Pairwise
      (fun a b => b.1 < a.1) :=
  ⟨sortSegments_sorted (allSegments prs emp),
    sortedDateGroups_sorted (sortSegments (allSegments prs emp))⟩
